import Mathlib

/-!
Verification of the A* target-practice pathfinder
(source: src/homework1/src/pathfinder.py).

The Python module is shallowly embedded below.  Machine integers of the
source are modelled as `ℤ` (grid coordinates) and `ℕ` (costs; the oracle
contract only promises nonnegative numeric costs, and every cost arising
in the claims is integral).  Python frozensets of locations become
`Finset (ℤ × ℤ)`, whose equality is order independent exactly like
frozenset equality.  The `MazeProblem` oracle is not part of the
repository; it is modelled from the spec's oracle contract (section 6)
as a structure of the four operations the pathfinder calls.

The search loop of `pathfind` is a Python `while` loop; it is embedded
with an explicit fuel parameter (`pathfindAux`).  The outer `Option`
of the result distinguishes running out of fuel (`none`, which never
happens for sufficient fuel on finite conforming problems) from the
loop finishing (`some r`, where `r` is the Python return value:
`some acts` for a solution list, `none` for Python's `None`).  The
second component of `pathfindAux` records the sequence of expanded
states, in expansion order, for the expansion-count claims.
-/

namespace Pathfinder

/-- Grid location: a pair of integer coordinates, as in the source. -/
abbrev Loc := ℤ × ℤ

/-- A frozenset of target locations. -/
abbrev TargetSet := Finset Loc

/-- A search state: the pair (current location, remaining targets) that the
source stores in the node field `player_loc` and keys the closed set by. -/
abbrev MState := Loc × TargetSet

/-- Source `manhattan_distance(a, b) = abs(a[0] - b[0]) + abs(a[1] - b[1])`. -/
def manhattan_distance (a b : Loc) : ℕ :=
  (a.1 - b.1).natAbs + (a.2 - b.2).natAbs

/-- Source `total_target_distance`: 0 on an empty set, otherwise the sum of
Manhattan distances from the player to every remaining target (Python sums a
set in arbitrary order; `Finset.sum` over `ℕ` is the same order-independent
value). -/
def total_target_distance (player_loc : Loc) (targets_left : TargetSet) : ℕ :=
  if targets_left = ∅ then 0
  else Finset.sum targets_left (fun target => manhattan_distance player_loc target)

/-- Source `SearchTreeNode` dataclass with fields, in declaration order,
`f h g player_loc action parent`.  The Python field `parent` is
`Optional[SearchTreeNode]`; here the `None` case is the `root` constructor
and the `Some parent` case is the `node` constructor, with the `parent`
accessor below recovering the `Option`-valued field. -/
inductive SearchTreeNode : Type where
  | root (f h g : ℕ) (player_loc : MState) (action : String)
  | node (f h g : ℕ) (player_loc : MState) (action : String) (parent : SearchTreeNode)

/-- Field `f` (priority, g + h). -/
def SearchTreeNode.f : SearchTreeNode → ℕ
  | .root f _ _ _ _ => f
  | .node f _ _ _ _ _ => f

/-- Field `h` (heuristic value at this node's state). -/
def SearchTreeNode.h : SearchTreeNode → ℕ
  | .root _ h _ _ _ => h
  | .node _ h _ _ _ _ => h

/-- Field `g` (accumulated path cost). -/
def SearchTreeNode.g : SearchTreeNode → ℕ
  | .root _ _ g _ _ => g
  | .node _ _ g _ _ _ => g

/-- Field `player_loc`: the source stores the whole (location, targets) state
tuple in this field. -/
def SearchTreeNode.player_loc : SearchTreeNode → MState
  | .root _ _ _ pl _ => pl
  | .node _ _ _ pl _ _ => pl

/-- Field `action`: the action that produced this node from its parent. -/
def SearchTreeNode.action : SearchTreeNode → String
  | .root _ _ _ _ a => a
  | .node _ _ _ _ a _ => a

/-- Field `parent`: `none` for the root node, as in the source. -/
def SearchTreeNode.parent : SearchTreeNode → Option SearchTreeNode
  | .root _ _ _ _ _ => none
  | .node _ _ _ _ _ par => some par

/-- Source `_get_solution` walks the parent chain collecting actions
(goal-first), then reverses; this is the goal-first walk. -/
def get_solution_rev : SearchTreeNode → List String
  | .root _ _ _ _ _ => []
  | .node _ _ _ _ a par => a :: get_solution_rev par

/-- Source `_get_solution(node)`: the action sequence from the root to the
given node. -/
def get_solution (nd : SearchTreeNode) : List String :=
  (get_solution_rev nd).reverse

/-- Modelled from the spec: the `MazeProblem` oracle (spec section 6) is not
part of this repository; only `pathfinder.py` imports it.  The four
operations the pathfinder calls are modelled as fields, with `locs` the
finite set of maze locations (the spec's finiteness assumption).
`transitions` returns the ordered action list of a Python dict's
`.items()`, each item carrying `next_loc` and `targets_hit`. -/
structure MazeProblem where
  locs : Finset Loc
  initial_loc : Loc
  initial_targets : TargetSet
  transitions : Loc → TargetSet → List (String × Loc × TargetSet)
  transition_cost : String → Loc → ℕ

/-- The oracle contract: initial location and targets lie in the finite
location set and every transition stays inside it.  Costs are nonnegative
by the `ℕ` modelling. -/
def Conforming (p : MazeProblem) : Prop :=
  p.initial_loc ∈ p.locs ∧ p.initial_targets ⊆ p.locs ∧
    ∀ loc ts tr, tr ∈ p.transitions loc ts → tr.2.1 ∈ p.locs

/-- The strict order in which Python's `PriorityQueue` ranks
`SearchTreeNode`s: the `order=True` dataclass compares the fields in
declaration order, so `f`, then `h`, then `g`.  (Beyond `g` Python would
compare `player_loc` — whose frozenset component is only partially
ordered — then `action`, then `parent`; no behaviour settled here depends
on those tail comparisons.) -/
def nodeLt (a b : SearchTreeNode) : Prop :=
  a.f < b.f ∨ (a.f = b.f ∧ (a.h < b.h ∨ (a.h = b.h ∧ a.g < b.g)))

instance nodeLtDec : ∀ a b : SearchTreeNode, Decidable (nodeLt a b) := fun a b => by
  unfold nodeLt
  infer_instance

/-- `frontier.get()` of the `PriorityQueue`: remove and return a minimal
node; among nodes tied on (f, h, g) the earliest inserted is taken. -/
def popMin : List SearchTreeNode → Option (SearchTreeNode × List SearchTreeNode)
  | [] => none
  | x :: xs =>
    match popMin xs with
    | none => some (x, [])
    | some (m, rest) => if nodeLt m x then some (m, x :: rest) else some (x, xs)

/-- The root node built at the top of `pathfind`: f = h = start_h, g = 0,
state = (initial location, initial targets), action = the empty string,
no parent. -/
def mkStart (p : MazeProblem) : SearchTreeNode :=
  SearchTreeNode.root
    (total_target_distance p.initial_loc p.initial_targets)
    (total_target_distance p.initial_loc p.initial_targets)
    0
    (p.initial_loc, p.initial_targets)
    ""

/-- The children pushed when `nd` is expanded: one node per oracle
transition whose resulting state is not in the closed set (which, as in the
source, already contains the state being expanded).  Child fields follow
the source: g' = g + transition_cost, h' = total_target_distance at the
child state, f' = g' + h'. -/
def childNodes (p : MazeProblem) (nd : SearchTreeNode) (closed' : Finset MState) :
    List SearchTreeNode :=
  (p.transitions nd.player_loc.1 nd.player_loc.2).filterMap (fun tr =>
    if (tr.2.1, nd.player_loc.2 \ tr.2.2) ∈ closed' then none
    else some (SearchTreeNode.node
      ((nd.g + p.transition_cost tr.1 nd.player_loc.1)
        + total_target_distance tr.2.1 (nd.player_loc.2 \ tr.2.2))
      (total_target_distance tr.2.1 (nd.player_loc.2 \ tr.2.2))
      (nd.g + p.transition_cost tr.1 nd.player_loc.1)
      (tr.2.1, nd.player_loc.2 \ tr.2.2)
      tr.1
      nd))

/-- The `while not frontier.empty()` loop of `pathfind`, with fuel.  Each
fuel unit is one loop iteration (one pop).  First component: `none` if the
fuel ran out, otherwise `some` of the Python return value.  Second
component: the states expanded (popped while not yet closed), in order. -/
def pathfindAux (p : MazeProblem) :
    ℕ → List SearchTreeNode → Finset MState → Option (Option (List String)) × List MState
  | 0, _, _ => (none, [])
  | fuel + 1, frontier, closed =>
    match popMin frontier with
    | none => (some none, [])
    | some (nd, rest) =>
      if nd.player_loc ∈ closed then
        pathfindAux p fuel rest closed
      else if nd.player_loc.2 = ∅ then
        (some (some (get_solution nd)), [nd.player_loc])
      else
        ((pathfindAux p fuel
            (rest ++ childNodes p nd (insert nd.player_loc closed))
            (insert nd.player_loc closed)).1,
          nd.player_loc ::
            (pathfindAux p fuel
              (rest ++ childNodes p nd (insert nd.player_loc closed))
              (insert nd.player_loc closed)).2)

/-- Source `pathfind(problem)`: run the search from the root node with an
empty closed set. -/
def pathfind (p : MazeProblem) (fuel : ℕ) : Option (Option (List String)) :=
  (pathfindAux p fuel [mkStart p] ∅).1

/-- The states expanded by a run of `pathfind`, in expansion order. -/
def expandedStates (p : MazeProblem) (fuel : ℕ) : List MState :=
  (pathfindAux p fuel [mkStart p] ∅).2

/-- States reachable from the initial state by legal oracle transitions;
each transition replaces the location by `next_loc` and removes
`targets_hit` from the remaining targets, as in the source. -/
inductive Reachable (p : MazeProblem) : MState → Prop where
  | init : Reachable p (p.initial_loc, p.initial_targets)
  | step {loc : Loc} {ts : TargetSet} {a : String} {nl : Loc} {hit : TargetSet} :
      Reachable p (loc, ts) → (a, nl, hit) ∈ p.transitions loc ts →
      Reachable p (nl, ts \ hit)

/-- `SolvesFrom p s acts c`: from state `s` the legal action sequence
`acts` neutralizes every remaining target, at total transition cost `c`
(the goal condition of the source: the remaining target set is empty). -/
inductive SolvesFrom (p : MazeProblem) : MState → List String → ℕ → Prop where
  | goal (loc : Loc) : SolvesFrom p (loc, ∅) [] 0
  | step {loc : Loc} {ts : TargetSet} {a : String} {nl : Loc} {hit : TargetSet}
      {acts : List String} {c : ℕ} :
      (a, nl, hit) ∈ p.transitions loc ts →
      SolvesFrom p (nl, ts \ hit) acts c →
      SolvesFrom p (loc, ts) (a :: acts) (p.transition_cost a loc + c)

/-- Oracles behaving like a unit grid: every transition moves the agent at
most one Manhattan step, costs at least 1, and neutralizes a remaining
target only when the agent lands on it. -/
def GridStep (p : MazeProblem) : Prop :=
  ∀ loc ts tr, tr ∈ p.transitions loc ts →
    manhattan_distance loc tr.2.1 ≤ 1 ∧
    1 ≤ p.transition_cost tr.1 loc ∧
    ∀ t ∈ tr.2.2, t ∈ ts → t = tr.2.1

/-- All states whose location is a maze location and whose target set is a
subset of the initial targets: a finite universe containing every state a
conforming run can meet. -/
def stateUniv (p : MazeProblem) : Finset MState :=
  p.locs ×ˢ p.initial_targets.powerset

/-- An upper bound on the branching factor over the state universe. -/
def branchBound (p : MazeProblem) : ℕ :=
  (stateUniv p).sup (fun s => (p.transitions s.1 s.2).length)

/-- Termination potential of a loop configuration: strictly decreases at
every loop iteration of `pathfindAux`. -/
def pot (p : MazeProblem) (frontier : List SearchTreeNode) (closed : Finset MState) : ℕ :=
  frontier.length + (branchBound p + 1) * ((stateUniv p) \ closed).card

/-! Concrete conforming oracle instances used as test inputs below. -/

/-- Two far-away targets, used by the optimality analysis. -/
def tsC1 : TargetSet := {((0, 10) : Loc), ((0, -10) : Loc)}

/-- Transitions of `exC1`: from the start, action "a" (cost 1) moves one
step hitting nothing and action "c" (cost 21) jumps to (3,0) hitting both
targets; from (1,0), action "b" (cost 1) hits both targets. -/
def exC1trans (loc : Loc) (_ : TargetSet) : List (String × Loc × TargetSet) :=
  if loc = ((0, 0) : Loc) then
    [("a", ((1, 0) : Loc), (∅ : TargetSet)), ("c", ((3, 0) : Loc), tsC1)]
  else if loc = ((1, 0) : Loc) then
    [("b", ((2, 0) : Loc), tsC1)]
  else []

/-- A conforming oracle on which the cheapest solution costs 2 ("a" then
"b") while the inflated sum-of-distances heuristic steers the search to the
cost-21 solution "c". -/
def exC1 : MazeProblem :=
  ⟨{((0, 0) : Loc), ((1, 0) : Loc), ((2, 0) : Loc), ((3, 0) : Loc),
      ((0, 10) : Loc), ((0, -10) : Loc)},
    ((0, 0) : Loc), tsC1, exC1trans, fun a _ => if a = "c" then 21 else 1⟩

/-- Two collinear targets east of the start. -/
def tsC2 : TargetSet := {((0, 1) : Loc), ((0, 2) : Loc)}

/-- Transitions of `exC2`: a unit-cost corridor walk east that hits each
target on arrival. -/
def exC2trans (loc : Loc) (_ : TargetSet) : List (String × Loc × TargetSet) :=
  if loc = ((0, 0) : Loc) then
    [("E", ((0, 1) : Loc), ({((0, 1) : Loc)} : TargetSet))]
  else if loc = ((0, 1) : Loc) then
    [("E", ((0, 2) : Loc), ({((0, 2) : Loc)} : TargetSet))]
  else []

/-- A conforming corridor oracle: both targets are cleared for total cost 2
while the heuristic at the start is 3. -/
def exC2 : MazeProblem :=
  ⟨{((0, 0) : Loc), ((0, 1) : Loc), ((0, 2) : Loc)},
    ((0, 0) : Loc), tsC2, exC2trans, fun _ _ => 1⟩

/-- Transitions of `exC7`: a single unit-cost step west, away from the two
targets, hitting nothing. -/
def exC7trans (loc : Loc) (_ : TargetSet) : List (String × Loc × TargetSet) :=
  if loc = ((0, 0) : Loc) then
    [("W", ((0, -1) : Loc), (∅ : TargetSet))]
  else []

/-- A conforming oracle with two remaining targets where one unit-cost step
changes the heuristic by 2. -/
def exC7 : MazeProblem :=
  ⟨{((0, -1) : Loc), ((0, 0) : Loc), ((0, 1) : Loc), ((0, 2) : Loc)},
    ((0, 0) : Loc), tsC2, exC7trans, fun _ _ => 1⟩

/-- Transitions of `exC9`: the dict lists "b" (cost 1, no hit) before "a"
(cost 2, hits the target); both children end up with f = 2. -/
def exC9trans (loc : Loc) (_ : TargetSet) : List (String × Loc × TargetSet) :=
  if loc = ((0, 0) : Loc) then
    [("b", ((1, 1) : Loc), (∅ : TargetSet)),
      ("a", ((0, 1) : Loc), ({((0, 1) : Loc)} : TargetSet))]
  else []

/-- A conforming oracle producing two frontier nodes with equal f where the
later-inserted node has the smaller h. -/
def exC9 : MazeProblem :=
  ⟨{((0, 0) : Loc), ((1, 1) : Loc), ((0, 1) : Loc)},
    ((0, 0) : Loc), {((0, 1) : Loc)}, exC9trans, fun a _ => if a = "a" then 2 else 1⟩

/-- A conforming oracle with one target and no transitions at all: the
target is unreachable and the frontier exhausts immediately. -/
def pW : MazeProblem :=
  ⟨{((0, 0) : Loc), ((1, 1) : Loc)}, ((0, 0) : Loc), {((1, 1) : Loc)},
    fun _ _ => [], fun _ _ => 0⟩

/-- Transitions of `pG`: one unit step east onto the single target. -/
def pGtrans (loc : Loc) (_ : TargetSet) : List (String × Loc × TargetSet) :=
  if loc = ((0, 0) : Loc) then
    [("E", ((0, 1) : Loc), ({((0, 1) : Loc)} : TargetSet))]
  else []

/-- A grid-like oracle with a single adjacent target. -/
def pG : MazeProblem :=
  ⟨{((0, 0) : Loc), ((0, 1) : Loc)}, ((0, 0) : Loc), {((0, 1) : Loc)},
    pGtrans, fun _ _ => 1⟩

/-- An oracle whose initial target set is empty: the agent is already done. -/
def pEmpty : MazeProblem :=
  ⟨{((0, 0) : Loc)}, ((0, 0) : Loc), (∅ : TargetSet), fun _ _ => [], fun _ _ => 0⟩

/-- Frontier node with f = 5, h = 0, g = 5, used to exercise the tie-break. -/
def nA : SearchTreeNode :=
  SearchTreeNode.root 5 0 5 (((0, 0) : Loc), (∅ : TargetSet)) "x"

/-- Frontier node with f = 5, h = 1, g = 4, used to exercise the tie-break. -/
def nB : SearchTreeNode :=
  SearchTreeNode.root 5 1 4 (((1, 1) : Loc), (∅ : TargetSet)) "y"

/-! Helper lemmas about the frontier order and `popMin`. -/

theorem nodeLt_irrefl (a : SearchTreeNode) : ¬ nodeLt a a := by
  unfold nodeLt
  omega

theorem nodeLt_asymm {a b : SearchTreeNode} (h : nodeLt a b) : ¬ nodeLt b a := by
  unfold nodeLt at *
  omega

theorem nodeLt_chain {x m y : SearchTreeNode}
    (h1 : nodeLt x y) (h2 : ¬ nodeLt x m) (h3 : ¬ nodeLt m y) : False := by
  unfold nodeLt at *
  omega

theorem popMin_none_eq_nil {l : List SearchTreeNode} (h : popMin l = none) : l = [] := by
  cases l with
  | nil => rfl
  | cons x xs =>
    exfalso
    rcases hx : popMin xs with _ | ⟨m, r⟩
    · simp only [popMin, hx] at h
      exact Option.noConfusion h
    · simp only [popMin, hx] at h
      by_cases hlt : nodeLt m x
      · rw [if_pos hlt] at h
        exact Option.noConfusion h
      · rw [if_neg hlt] at h
        exact Option.noConfusion h

theorem popMin_mem {l : List SearchTreeNode} {nd : SearchTreeNode}
    {rest : List SearchTreeNode} (h : popMin l = some (nd, rest)) : nd ∈ l := by
  induction l generalizing nd rest with
  | nil => simp [popMin] at h
  | cons x xs ih =>
    rcases hx : popMin xs with _ | ⟨m, r⟩
    · simp only [popMin, hx, Option.some.injEq, Prod.mk.injEq] at h
      obtain ⟨rfl, rfl⟩ := h
      exact List.Mem.head xs
    · simp only [popMin, hx] at h
      by_cases hlt : nodeLt m x
      · rw [if_pos hlt] at h
        simp only [Option.some.injEq, Prod.mk.injEq] at h
        obtain ⟨rfl, rfl⟩ := h
        exact List.Mem.tail x (ih hx)
      · rw [if_neg hlt] at h
        simp only [Option.some.injEq, Prod.mk.injEq] at h
        obtain ⟨rfl, rfl⟩ := h
        exact List.Mem.head xs

theorem popMin_length {l : List SearchTreeNode} {nd : SearchTreeNode}
    {rest : List SearchTreeNode} (h : popMin l = some (nd, rest)) :
    rest.length + 1 = l.length := by
  induction l generalizing nd rest with
  | nil => simp [popMin] at h
  | cons x xs ih =>
    rcases hx : popMin xs with _ | ⟨m, r⟩
    · simp only [popMin, hx, Option.some.injEq, Prod.mk.injEq] at h
      obtain ⟨rfl, rfl⟩ := h
      have hnil := popMin_none_eq_nil hx
      subst hnil
      rfl
    · simp only [popMin, hx] at h
      by_cases hlt : nodeLt m x
      · rw [if_pos hlt] at h
        simp only [Option.some.injEq, Prod.mk.injEq] at h
        obtain ⟨rfl, rfl⟩ := h
        have := ih hx
        simp only [List.length_cons] at *
        omega
      · rw [if_neg hlt] at h
        simp only [Option.some.injEq, Prod.mk.injEq] at h
        obtain ⟨rfl, rfl⟩ := h
        rfl

theorem popMin_subset {l : List SearchTreeNode} {nd : SearchTreeNode}
    {rest : List SearchTreeNode} (h : popMin l = some (nd, rest)) :
    ∀ y ∈ rest, y ∈ l := by
  induction l generalizing nd rest with
  | nil => simp [popMin] at h
  | cons x xs ih =>
    rcases hx : popMin xs with _ | ⟨m, r⟩
    · simp only [popMin, hx, Option.some.injEq, Prod.mk.injEq] at h
      obtain ⟨rfl, rfl⟩ := h
      intro y hy
      exact absurd hy (List.not_mem_nil y)
    · simp only [popMin, hx] at h
      by_cases hlt : nodeLt m x
      · rw [if_pos hlt] at h
        simp only [Option.some.injEq, Prod.mk.injEq] at h
        obtain ⟨rfl, rfl⟩ := h
        intro y hy
        cases hy with
        | head => exact List.Mem.head xs
        | tail _ hy => exact List.Mem.tail x (ih hx y hy)
      · rw [if_neg hlt] at h
        simp only [Option.some.injEq, Prod.mk.injEq] at h
        obtain ⟨rfl, rfl⟩ := h
        intro y hy
        exact List.Mem.tail x hy

theorem popMin_min {l : List SearchTreeNode} {nd : SearchTreeNode}
    {rest : List SearchTreeNode} (h : popMin l = some (nd, rest)) :
    ∀ y ∈ l, ¬ nodeLt y nd := by
  induction l generalizing nd rest with
  | nil => simp [popMin] at h
  | cons x xs ih =>
    rcases hx : popMin xs with _ | ⟨m, r⟩
    · simp only [popMin, hx, Option.some.injEq, Prod.mk.injEq] at h
      obtain ⟨rfl, rfl⟩ := h
      have hnil := popMin_none_eq_nil hx
      subst hnil
      intro y hy
      have hyx : y = x := by simpa using hy
      subst hyx
      exact nodeLt_irrefl y
    · simp only [popMin, hx] at h
      by_cases hlt : nodeLt m x
      · rw [if_pos hlt] at h
        simp only [Option.some.injEq, Prod.mk.injEq] at h
        obtain ⟨rfl, rfl⟩ := h
        intro y hy
        cases hy with
        | head => exact nodeLt_asymm hlt
        | tail _ hy => exact ih hx y hy
      · rw [if_neg hlt] at h
        simp only [Option.some.injEq, Prod.mk.injEq] at h
        obtain ⟨rfl, rfl⟩ := h
        intro y hy
        cases hy with
        | head => exact nodeLt_irrefl x
        | tail _ hy =>
          intro hyx
          exact nodeLt_chain hyx (ih hx y hy) hlt

/-! Settled claims. -/

/-- C5: for every location `loc` and target set `T`, `total_target_distance
loc T` equals the sum over the targets `t` of `T` of the Manhattan distance
from `loc` to `t`, and it equals 0 when `T` is empty. -/
theorem total_target_distance_eq_sum (loc : Loc) (T : TargetSet) :
    total_target_distance loc T = Finset.sum T (fun t => manhattan_distance loc t) ∧
      total_target_distance loc (∅ : TargetSet) = 0 := by
  constructor
  · by_cases h : T = ∅
    · subst h
      simp [total_target_distance]
    · simp [total_target_distance, h]
  · simp [total_target_distance]

/-- C8 counterexample: at the concrete problem `pW` the root node built by
`pathfind` has `parent = none` but its "no action" marker IS the empty
string, contradicting the claim that the marker is not the empty string. -/
theorem root_sentinel_cex :
    ¬ ((mkStart pW).parent = none ∧ (mkStart pW).action ≠ "") := by
  intro h
  exact h.2 rfl

/-- C8 amended: the root search node created by `pathfind` has no parent
(`parent = none`) and its "no action" marker is exactly the empty string
(the source builds it with `action=""`). -/
theorem root_sentinel_amended (p : MazeProblem) :
    (mkStart p).parent = none ∧ (mkStart p).action = "" :=
  ⟨rfl, rfl⟩

/-- C6: for every problem whose initial target set is empty, `pathfind`
returns the empty action sequence (the root is popped, goal-tested at once,
and reconstruction of the parentless root yields `[]`), and the root node
carries accumulated cost g = 0. -/
theorem pathfind_empty_targets (p : MazeProblem) (fuel : ℕ)
    (hts : p.initial_targets = ∅) (hfuel : 1 ≤ fuel) :
    pathfind p fuel = some (some []) ∧ (mkStart p).g = 0 := by
  obtain ⟨n, rfl⟩ : ∃ n, fuel = n + 1 := ⟨fuel - 1, by omega⟩
  refine ⟨?_, rfl⟩
  show (pathfindAux p (n + 1) [mkStart p] ∅).1 = some (some [])
  have hpop : popMin [mkStart p] = some (mkStart p, []) := rfl
  have hmem : (mkStart p).player_loc ∉ (∅ : Finset MState) := Finset.not_mem_empty _
  have hgoal : (mkStart p).player_loc.2 = ∅ := hts
  simp only [pathfindAux, hpop, if_neg hmem, if_pos hgoal]
  rfl

/-- Witness for C6: the zero-target problem `pEmpty` with one unit of fuel
returns the empty action sequence with root cost 0. -/
theorem pathfind_empty_targets_witness :
    pEmpty.initial_targets = ∅ ∧ 1 ≤ 1 ∧
      (pathfind pEmpty 1 = some (some []) ∧ (mkStart pEmpty).g = 0) :=
  ⟨rfl, le_refl 1, pathfind_empty_targets pEmpty 1 rfl (le_refl 1)⟩

/-- C10: among frontier nodes with equal f, the dataclass order compares h
then g: if `a` is in the frontier with `a.f = b.f` and `(a.h, a.g)`
lexicographically smaller than `(b.h, b.g)`, then the frontier never pops
`b` at this step (so `b` cannot be popped before `a`); by symmetry of the
statement in `a` and `b` this is the claimed equivalence for nodes that
differ in h or in g. -/
theorem frontier_tiebreak (l : List SearchTreeNode) (a b : SearchTreeNode)
    (ha : a ∈ l) (hf : a.f = b.f)
    (hlex : a.h < b.h ∨ (a.h = b.h ∧ a.g < b.g)) :
    (popMin l).map Prod.fst ≠ some b := by
  intro hcontra
  cases hpop : popMin l with
  | none => rw [hpop] at hcontra; simp at hcontra
  | some pr =>
    obtain ⟨nd, rest⟩ := pr
    rw [hpop] at hcontra
    simp at hcontra
    subst hcontra
    exact popMin_min hpop a ha (Or.inr ⟨hf, hlex⟩)

/-- Witness for C10: with the equal-f nodes `nB` (h = 1, inserted first)
and `nA` (h = 0, inserted second), the frontier does not pop `nB`. -/
theorem frontier_tiebreak_witness :
    nA ∈ [nB, nA] ∧ nA.f = nB.f ∧
      (nA.h < nB.h ∨ (nA.h = nB.h ∧ nA.g < nB.g)) ∧
      (popMin [nB, nA]).map Prod.fst ≠ some nB :=
  ⟨List.Mem.tail nB (List.Mem.head []), rfl, Or.inl (by decide),
    frontier_tiebreak [nB, nA] nA nB (List.Mem.tail nB (List.Mem.head [])) rfl
      (Or.inl (by decide))⟩

/-- C9 counterexample: on `exC9`, the oracle lists action "b" before "a",
both children carry equal f = 2, yet the search expands the later-inserted
"a" child first (its h is smaller) and returns its solution: the tie-break
among equal-f nodes is not a stable insertion sequence number. -/
theorem determinism_tiebreak_cex :
    (exC9.transitions ((0, 0) : Loc) ({((0, 1) : Loc)} : TargetSet)).map Prod.fst
        = ["b", "a"] ∧
      exC9.transition_cost "b" ((0, 0) : Loc)
          + total_target_distance ((1, 1) : Loc) ({((0, 1) : Loc)} : TargetSet)
        = exC9.transition_cost "a" ((0, 0) : Loc)
          + total_target_distance ((0, 1) : Loc) (∅ : TargetSet) ∧
      expandedStates exC9 3
        = [(((0, 0) : Loc), ({((0, 1) : Loc)} : TargetSet)),
            (((0, 1) : Loc), (∅ : TargetSet))] ∧
      pathfind exC9 3 = some (some ["a"]) :=
  ⟨by decide, by decide, by decide, by decide⟩

/-- C9 amended: `pathfind` is deterministic — identical problem and fuel
yield identical results — and the frontier pop is governed by the
dataclass order on (f, then h, then g): the popped node is a member of the
frontier that no other frontier node strictly precedes; the tie-break among
equal-f nodes is h then g, not a stable insertion sequence number. -/
theorem determinism_tiebreak_amended :
    (∀ (p q : MazeProblem) (fuel₁ fuel₂ : ℕ), p = q → fuel₁ = fuel₂ →
        pathfind p fuel₁ = pathfind q fuel₂) ∧
      (∀ (l : List SearchTreeNode) (nd : SearchTreeNode) (rest : List SearchTreeNode),
        popMin l = some (nd, rest) → nd ∈ l ∧ ∀ y ∈ l, ¬ nodeLt y nd) := by
  constructor
  · intro p q fuel₁ fuel₂ hp hf
    rw [hp, hf]
  · intro l nd rest h
    exact ⟨popMin_mem h, popMin_min h⟩

/-- Witness for C9 amended: two identical invocations on `exC9` agree, and
the singleton frontier `[nA]` pops `nA`, which is minimal. -/
theorem determinism_tiebreak_amended_witness :
    pathfind exC9 3 = pathfind exC9 3 ∧
      (nA ∈ [nA] ∧ ∀ y ∈ [nA], ¬ nodeLt y nA) :=
  ⟨determinism_tiebreak_amended.1 exC9 exC9 3 3 rfl rfl,
    determinism_tiebreak_amended.2 [nA] nA [] rfl⟩

theorem exC1_conforming : Conforming exC1 := by
  refine ⟨by decide, by decide, ?_⟩
  intro loc ts tr htr
  have htr' : tr ∈ exC1trans loc ts := htr
  unfold exC1trans at htr'
  by_cases h0 : loc = ((0, 0) : Loc)
  · rw [if_pos h0] at htr'
    simp only [List.mem_cons, List.not_mem_nil, or_false] at htr'
    rcases htr' with rfl | rfl <;> decide
  · rw [if_neg h0] at htr'
    by_cases h1 : loc = ((1, 0) : Loc)
    · rw [if_pos h1] at htr'
      simp only [List.mem_cons, List.not_mem_nil, or_false] at htr'
      rcases htr' with rfl
      decide
    · rw [if_neg h1] at htr'
      exact absurd htr' (List.not_mem_nil tr)

theorem exC1_solves_ab : SolvesFrom exC1 (((0, 0) : Loc), tsC1) ["a", "b"] 2 := by
  have hg : SolvesFrom exC1 (((2, 0) : Loc), ((tsC1 \ ∅) \ tsC1 : TargetSet)) [] 0 := by
    rw [show ((tsC1 \ ∅) \ tsC1 : TargetSet) = ∅ by decide]
    exact SolvesFrom.goal ((2, 0) : Loc)
  have h1 : SolvesFrom exC1 (((1, 0) : Loc), (tsC1 \ ∅ : TargetSet)) ["b"]
      (exC1.transition_cost "b" ((1, 0) : Loc) + 0) :=
    SolvesFrom.step (by decide) hg
  have h2 : SolvesFrom exC1 (((0, 0) : Loc), tsC1) ["a", "b"]
      (exC1.transition_cost "a" ((0, 0) : Loc)
        + (exC1.transition_cost "b" ((1, 0) : Loc) + 0)) :=
    SolvesFrom.step (by decide) h1
  exact h2

theorem exC1_solves_c : SolvesFrom exC1 (((0, 0) : Loc), tsC1) ["c"] 21 := by
  have hg : SolvesFrom exC1 (((3, 0) : Loc), (tsC1 \ tsC1 : TargetSet)) [] 0 := by
    rw [show (tsC1 \ tsC1 : TargetSet) = ∅ by decide]
    exact SolvesFrom.goal ((3, 0) : Loc)
  have h1 : SolvesFrom exC1 (((0, 0) : Loc), tsC1) ["c"]
      (exC1.transition_cost "c" ((0, 0) : Loc) + 0) :=
    SolvesFrom.step (by decide) hg
  exact h1

/-- C1 (code bug evaluation): on the conforming oracle `exC1`, `pathfind`
returns the action sequence `["c"]`, a legal solution of cost 21, although
the legal solution `["a", "b"]` costs only 2: the returned cost is not the
minimum over all legal solutions.  The inflated sum-of-Manhattan heuristic
(22 at the cheap route's second node, against the expensive goal's f = 21)
makes A* commit to the expensive goal first. -/
theorem pathfind_not_optimal :
    Conforming exC1 ∧ pathfind exC1 3 = some (some ["c"]) ∧
      SolvesFrom exC1 (((0, 0) : Loc), tsC1) ["c"] 21 ∧
      SolvesFrom exC1 (((0, 0) : Loc), tsC1) ["a", "b"] 2 ∧ (2 : ℕ) < 21 :=
  ⟨exC1_conforming, by decide, exC1_solves_c, exC1_solves_ab, by decide⟩

theorem exC2_conforming : Conforming exC2 := by
  refine ⟨by decide, by decide, ?_⟩
  intro loc ts tr htr
  have htr' : tr ∈ exC2trans loc ts := htr
  unfold exC2trans at htr'
  by_cases h0 : loc = ((0, 0) : Loc)
  · rw [if_pos h0] at htr'
    simp only [List.mem_cons, List.not_mem_nil, or_false] at htr'
    rcases htr' with rfl
    decide
  · rw [if_neg h0] at htr'
    by_cases h1 : loc = ((0, 1) : Loc)
    · rw [if_pos h1] at htr'
      simp only [List.mem_cons, List.not_mem_nil, or_false] at htr'
      rcases htr' with rfl
      decide
    · rw [if_neg h1] at htr'
      exact absurd htr' (List.not_mem_nil tr)

theorem exC2_solves : SolvesFrom exC2 (((0, 0) : Loc), tsC2) ["E", "E"] 2 := by
  have hg : SolvesFrom exC2
      (((0, 2) : Loc), ((tsC2 \ {((0, 1) : Loc)}) \ {((0, 2) : Loc)} : TargetSet)) [] 0 := by
    rw [show ((tsC2 \ {((0, 1) : Loc)}) \ {((0, 2) : Loc)} : TargetSet) = ∅ by decide]
    exact SolvesFrom.goal ((0, 2) : Loc)
  have h1 : SolvesFrom exC2 (((0, 1) : Loc), (tsC2 \ {((0, 1) : Loc)} : TargetSet)) ["E"]
      (exC2.transition_cost "E" ((0, 1) : Loc) + 0) :=
    SolvesFrom.step (by decide) hg
  have h2 : SolvesFrom exC2 (((0, 0) : Loc), tsC2) ["E", "E"]
      (exC2.transition_cost "E" ((0, 0) : Loc)
        + (exC2.transition_cost "E" ((0, 1) : Loc) + 0)) :=
    SolvesFrom.step (by decide) h1
  exact h2

/-- C2 counterexample: on the conforming corridor oracle `exC2`, the legal
action sequence `["E", "E"]` neutralizes every target at cost 2, yet
`total_target_distance` at the initial state is 3: the heuristic
overestimates the true minimum remaining cost, so it is not admissible. -/
theorem heuristic_inadmissible_cex :
    Conforming exC2 ∧ SolvesFrom exC2 (((0, 0) : Loc), tsC2) ["E", "E"] 2 ∧
      2 < total_target_distance ((0, 0) : Loc) tsC2 :=
  ⟨exC2_conforming, exC2_solves, by decide⟩

theorem exC7_conforming : Conforming exC7 := by
  refine ⟨by decide, by decide, ?_⟩
  intro loc ts tr htr
  have htr' : tr ∈ exC7trans loc ts := htr
  unfold exC7trans at htr'
  by_cases h0 : loc = ((0, 0) : Loc)
  · rw [if_pos h0] at htr'
    simp only [List.mem_cons, List.not_mem_nil, or_false] at htr'
    rcases htr' with rfl
    decide
  · rw [if_neg h0] at htr'
    exact absurd htr' (List.not_mem_nil tr)

/-- C7 counterexample: on the conforming oracle `exC7`, the single legal
transition "W" of cost 1 connects the state ((0,0), two targets) to
((0,-1), same targets), and the heuristic changes from 3 to 5: the
difference 2 exceeds the transition cost 1, so the heuristic is not
consistent. -/
theorem heuristic_inconsistent_cex :
    Conforming exC7 ∧
      ("W", ((0, -1) : Loc), (∅ : TargetSet)) ∈ exC7.transitions ((0, 0) : Loc) tsC2 ∧
      exC7.transition_cost "W" ((0, 0) : Loc)
        < ((total_target_distance ((0, 0) : Loc) tsC2 : ℤ)
            - total_target_distance ((0, -1) : Loc) (tsC2 \ ∅)).natAbs :=
  ⟨exC7_conforming, by decide, by decide⟩

theorem pathfindAux_empty_step {p : MazeProblem} {n : ℕ} {frontier : List SearchTreeNode}
    {closed : Finset MState} (hpop : popMin frontier = none) :
    pathfindAux p (n + 1) frontier closed = (some none, []) := by
  simp only [pathfindAux, hpop]

theorem pathfindAux_closed_step {p : MazeProblem} {n : ℕ} {frontier : List SearchTreeNode}
    {closed : Finset MState} {nd : SearchTreeNode} {rest : List SearchTreeNode}
    (hpop : popMin frontier = some (nd, rest)) (hin : nd.player_loc ∈ closed) :
    pathfindAux p (n + 1) frontier closed = pathfindAux p n rest closed := by
  simp only [pathfindAux, hpop, if_pos hin]

theorem pathfindAux_goal_step {p : MazeProblem} {n : ℕ} {frontier : List SearchTreeNode}
    {closed : Finset MState} {nd : SearchTreeNode} {rest : List SearchTreeNode}
    (hpop : popMin frontier = some (nd, rest)) (hin : nd.player_loc ∉ closed)
    (hgoal : nd.player_loc.2 = ∅) :
    pathfindAux p (n + 1) frontier closed
      = (some (some (get_solution nd)), [nd.player_loc]) := by
  simp only [pathfindAux, hpop, if_neg hin, if_pos hgoal]

theorem pathfindAux_expand_step {p : MazeProblem} {n : ℕ} {frontier : List SearchTreeNode}
    {closed : Finset MState} {nd : SearchTreeNode} {rest : List SearchTreeNode}
    (hpop : popMin frontier = some (nd, rest)) (hin : nd.player_loc ∉ closed)
    (hgoal : ¬ nd.player_loc.2 = ∅) :
    pathfindAux p (n + 1) frontier closed
      = ((pathfindAux p n
            (rest ++ childNodes p nd (insert nd.player_loc closed))
            (insert nd.player_loc closed)).1,
          nd.player_loc ::
            (pathfindAux p n
              (rest ++ childNodes p nd (insert nd.player_loc closed))
              (insert nd.player_loc closed)).2) := by
  simp only [pathfindAux, hpop, if_neg hin, if_neg hgoal]

theorem childNodes_mem {p : MazeProblem} {nd x : SearchTreeNode} {closed' : Finset MState}
    (hx : x ∈ childNodes p nd closed') :
    ∃ tr ∈ p.transitions nd.player_loc.1 nd.player_loc.2,
      x.player_loc = (tr.2.1, nd.player_loc.2 \ tr.2.2) := by
  unfold childNodes at hx
  rcases List.mem_filterMap.mp hx with ⟨tr, htr, hsome⟩
  by_cases hc : (tr.2.1, nd.player_loc.2 \ tr.2.2) ∈ closed'
  · rw [if_pos hc] at hsome
    exact Option.noConfusion hsome
  · rw [if_neg hc] at hsome
    refine ⟨tr, htr, ?_⟩
    cases hsome
    rfl

theorem childNodes_reachable {p : MazeProblem} {nd x : SearchTreeNode}
    {closed' : Finset MState} (hnd : Reachable p nd.player_loc)
    (hx : x ∈ childNodes p nd closed') : Reachable p x.player_loc := by
  rcases childNodes_mem hx with ⟨tr, htr, hpl⟩
  rw [hpl]
  exact Reachable.step hnd htr

theorem pathfindAux_expanded_closed (p : MazeProblem) :
    ∀ (fuel : ℕ) (frontier : List SearchTreeNode) (closed : Finset MState),
      ((pathfindAux p fuel frontier closed).2).Nodup ∧
        ∀ s ∈ (pathfindAux p fuel frontier closed).2, s ∉ closed := by
  intro fuel
  induction fuel with
  | zero =>
    intro frontier closed
    simp [pathfindAux]
  | succ n ih =>
    intro frontier closed
    rcases hpop : popMin frontier with _ | ⟨nd, rest⟩
    · rw [pathfindAux_empty_step hpop]
      simp
    · by_cases hin : nd.player_loc ∈ closed
      · rw [pathfindAux_closed_step hpop hin]
        exact ih rest closed
      · by_cases hgoal : nd.player_loc.2 = ∅
        · rw [pathfindAux_goal_step hpop hin hgoal]
          refine ⟨List.nodup_singleton _, ?_⟩
          intro s hs
          have hs' : s = nd.player_loc := by simpa using hs
          subst hs'
          exact hin
        · rw [pathfindAux_expand_step hpop hin hgoal]
          have hih := ih (rest ++ childNodes p nd (insert nd.player_loc closed))
            (insert nd.player_loc closed)
          constructor
          · refine List.nodup_cons.mpr ⟨?_, hih.1⟩
            intro hmem
            exact hih.2 _ hmem (Finset.mem_insert_self _ _)
          · intro s hs
            rcases List.mem_cons.mp hs with rfl | hs'
            · exact hin
            · intro hscl
              exact hih.2 s hs' (Finset.mem_insert_of_mem hscl)

theorem pathfindAux_expanded_reachable (p : MazeProblem) :
    ∀ (fuel : ℕ) (frontier : List SearchTreeNode) (closed : Finset MState),
      (∀ nd ∈ frontier, Reachable p nd.player_loc) →
      ∀ s ∈ (pathfindAux p fuel frontier closed).2, Reachable p s := by
  intro fuel
  induction fuel with
  | zero =>
    intro frontier closed _
    simp [pathfindAux]
  | succ n ih =>
    intro frontier closed hfr
    rcases hpop : popMin frontier with _ | ⟨nd, rest⟩
    · rw [pathfindAux_empty_step hpop]
      simp
    · by_cases hin : nd.player_loc ∈ closed
      · rw [pathfindAux_closed_step hpop hin]
        exact ih rest closed (fun x hx => hfr x (popMin_subset hpop x hx))
      · by_cases hgoal : nd.player_loc.2 = ∅
        · rw [pathfindAux_goal_step hpop hin hgoal]
          intro s hs
          have hs' : s = nd.player_loc := by simpa using hs
          subst hs'
          exact hfr nd (popMin_mem hpop)
        · rw [pathfindAux_expand_step hpop hin hgoal]
          intro s hs
          rcases List.mem_cons.mp hs with rfl | hs'
          · exact hfr nd (popMin_mem hpop)
          · refine ih (rest ++ childNodes p nd (insert nd.player_loc closed))
              (insert nd.player_loc closed) ?_ s hs'
            intro x hx
            rcases List.mem_append.mp hx with hxr | hxc
            · exact hfr x (popMin_subset hpop x hxr)
            · exact childNodes_reachable (hfr nd (popMin_mem hpop)) hxc

theorem pW_reachable : ∀ s, Reachable pW s →
    s = (((0, 0) : Loc), ({((1, 1) : Loc)} : TargetSet)) := by
  intro s hs
  induction hs with
  | init => rfl
  | step _ htr _ => exact absurd htr (List.not_mem_nil _)

/-- C4: during any single run of `pathfind`, the list of expanded states
(popped, found unclosed, goal-tested, and — unless a goal — used to
generate transitions) has no duplicate state, every expanded state is
reachable from the initial state, and consequently the number of
expansions is at most the cardinality of any finite set containing the
reachable states. -/
theorem expand_at_most_once (p : MazeProblem) (fuel : ℕ) (S : Finset MState)
    (hS : ∀ s, Reachable p s → s ∈ S) :
    (expandedStates p fuel).Nodup ∧ (∀ s ∈ expandedStates p fuel, Reachable p s) ∧
      (expandedStates p fuel).length ≤ S.card := by
  have hnd := (pathfindAux_expanded_closed p fuel [mkStart p] ∅).1
  have hreach : ∀ s ∈ expandedStates p fuel, Reachable p s := by
    apply pathfindAux_expanded_reachable p fuel [mkStart p] ∅
    intro nd hnd'
    have : nd = mkStart p := by simpa using hnd'
    subst this
    exact Reachable.init
  refine ⟨hnd, hreach, ?_⟩
  have hsub : (expandedStates p fuel).toFinset ⊆ S := by
    intro s hs
    exact hS s (hreach s (List.mem_toFinset.mp hs))
  calc (expandedStates p fuel).length
      = (expandedStates p fuel).toFinset.card := (List.toFinset_card_of_nodup hnd).symm
    _ ≤ S.card := Finset.card_le_card hsub

/-- Witness for C4: on the no-transition problem `pW` (whose only reachable
state is the initial one), a run with fuel 5 expands a duplicate-free list
of reachable states of length at most 1. -/
theorem expand_at_most_once_witness :
    (expandedStates pW 5).Nodup ∧ (∀ s ∈ expandedStates pW 5, Reachable pW s) ∧
      (expandedStates pW 5).length
        ≤ ({(((0, 0) : Loc), ({((1, 1) : Loc)} : TargetSet))} : Finset MState).card :=
  expand_at_most_once pW 5 _
    (fun s hs => by rw [pW_reachable s hs]; exact Finset.mem_singleton_self _)

theorem manhattan_triangle (a b c : Loc) :
    manhattan_distance a c ≤ manhattan_distance a b + manhattan_distance b c := by
  unfold manhattan_distance
  omega

theorem manhattan_comm (a b : Loc) : manhattan_distance a b = manhattan_distance b a := by
  unfold manhattan_distance
  omega

theorem total_target_distance_singleton (loc t : Loc) :
    total_target_distance loc ({t} : TargetSet) = manhattan_distance loc t := by
  unfold total_target_distance
  rw [if_neg (by simp : ({t} : TargetSet) ≠ ∅)]
  exact Finset.sum_singleton _ _

theorem pG_gridstep : GridStep pG := by
  intro loc ts tr htr
  have htr' : tr ∈ pGtrans loc ts := htr
  unfold pGtrans at htr'
  by_cases h0 : loc = ((0, 0) : Loc)
  · rw [if_pos h0] at htr'
    simp only [List.mem_cons, List.not_mem_nil, or_false] at htr'
    subst htr'
    subst h0
    refine ⟨by decide, by decide, ?_⟩
    intro t ht _
    have ht' : t = ((0, 1) : Loc) := by simpa using ht
    subst ht'
    rfl
  · rw [if_neg h0] at htr'
    exact absurd htr' (List.not_mem_nil tr)

theorem pG_solves :
    SolvesFrom pG (((0, 0) : Loc), ({((0, 1) : Loc)} : TargetSet)) ["E"] 1 := by
  have hg : SolvesFrom pG
      (((0, 1) : Loc), (({((0, 1) : Loc)} : TargetSet) \ {((0, 1) : Loc)})) [] 0 := by
    rw [show (({((0, 1) : Loc)} : TargetSet) \ {((0, 1) : Loc)}) = ∅ by decide]
    exact SolvesFrom.goal ((0, 1) : Loc)
  have h1 : SolvesFrom pG (((0, 0) : Loc), ({((0, 1) : Loc)} : TargetSet)) ["E"]
      (pG.transition_cost "E" ((0, 0) : Loc) + 0) :=
    SolvesFrom.step (by decide) hg
  exact h1

/-- C2 amended: the heuristic is not admissible in general (see the
counterexample with two remaining targets), but it is admissible whenever
at most one target remains, for grid-like oracles: if every transition
moves the agent at most one Manhattan step, costs at least 1, and
neutralizes a remaining target only at the destination cell, then for any
state with at most one remaining target, `total_target_distance` never
exceeds the cost of any legal action sequence that neutralizes every
remaining target. -/
theorem heuristic_admissible_single (p : MazeProblem) (hg : GridStep p)
    (s : MState) (acts : List String) (c : ℕ) (hsol : SolvesFrom p s acts c) :
    s.2.card ≤ 1 → total_target_distance s.1 s.2 ≤ c := by
  induction hsol with
  | goal loc =>
    intro _
    show total_target_distance loc ∅ ≤ 0
    simp [total_target_distance]
  | step htr hrest ih =>
    rename_i loc ts a nl hit acts2 c2
    intro hcard
    show total_target_distance loc ts ≤ p.transition_cost a loc + c2
    replace hcard : ts.card ≤ 1 := hcard
    by_cases hts : ts = ∅
    · subst hts
      simp [total_target_distance]
    · have hcard1 : ts.card = 1 := by
        have := Finset.card_pos.mpr (Finset.nonempty_iff_ne_empty.mpr hts)
        omega
      obtain ⟨t, rfl⟩ := Finset.card_eq_one.mp hcard1
      obtain ⟨hstep1, hstep2, hstep3⟩ := hg loc {t} (a, nl, hit) htr
      by_cases hhit : t ∈ hit
      · have hnl : t = nl := hstep3 t hhit (Finset.mem_singleton_self t)
        rw [total_target_distance_singleton, hnl]
        have h1 : manhattan_distance loc nl ≤ 1 := hstep1
        have h2 : 1 ≤ p.transition_cost a loc := hstep2
        omega
      · have hsd : ({t} : TargetSet) \ hit = {t} := by
          ext y
          simp only [Finset.mem_sdiff, Finset.mem_singleton]
          constructor
          · rintro ⟨hy, _⟩
            exact hy
          · rintro rfl
            exact ⟨rfl, hhit⟩
        have ihc : total_target_distance nl ({t} : TargetSet) ≤ c2 := by
          have := ih (by rw [show ((nl, ({t} : TargetSet) \ hit) : MState).2 = {t} from hsd]; simp)
          rw [show ((nl, ({t} : TargetSet) \ hit) : MState).2 = {t} from hsd] at this
          exact this
        rw [total_target_distance_singleton]
        rw [total_target_distance_singleton] at ihc
        have htri := manhattan_triangle loc nl t
        have h1 : manhattan_distance loc nl ≤ 1 := hstep1
        have h2 : 1 ≤ p.transition_cost a loc := hstep2
        omega

/-- Witness for C2 amended: on the grid-like oracle `pG` with its single
adjacent target, the step sequence of cost 1 bounds the heuristic value 1. -/
theorem heuristic_admissible_single_witness :
    GridStep pG ∧
      ((((0, 0) : Loc), ({((0, 1) : Loc)} : TargetSet)) : MState).2.card ≤ 1 ∧
      SolvesFrom pG (((0, 0) : Loc), ({((0, 1) : Loc)} : TargetSet)) ["E"] 1 ∧
      total_target_distance ((0, 0) : Loc) ({((0, 1) : Loc)} : TargetSet) ≤ 1 :=
  ⟨pG_gridstep, by decide, pG_solves,
    heuristic_admissible_single pG pG_gridstep _ ["E"] 1 pG_solves (by decide)⟩

/-- C7 amended: the heuristic is not consistent in general (see the
counterexample with two remaining targets), but it is consistent whenever
at most one target remains, for grid-like oracles: for any legal
transition out of a state with at most one remaining target, the absolute
change of `total_target_distance` across the transition is at most the
transition cost. -/
theorem heuristic_consistent_single (p : MazeProblem) (hg : GridStep p)
    (loc : Loc) (ts : TargetSet) (hcard : ts.card ≤ 1)
    (tr : String × Loc × TargetSet) (htr : tr ∈ p.transitions loc ts) :
    ((total_target_distance loc ts : ℤ)
        - total_target_distance tr.2.1 (ts \ tr.2.2)).natAbs
      ≤ p.transition_cost tr.1 loc := by
  obtain ⟨hstep1, hstep2, hstep3⟩ := hg loc ts tr htr
  by_cases hts : ts = ∅
  · subst hts
    rw [Finset.empty_sdiff]
    simp [total_target_distance]
  · have hcard1 : ts.card = 1 := by
      have := Finset.card_pos.mpr (Finset.nonempty_iff_ne_empty.mpr hts)
      omega
    obtain ⟨t, rfl⟩ := Finset.card_eq_one.mp hcard1
    by_cases hhit : t ∈ tr.2.2
    · have hnl : t = tr.2.1 := hstep3 t hhit (Finset.mem_singleton_self t)
      have hsd : ({t} : TargetSet) \ tr.2.2 = ∅ := by
        ext y
        simp only [Finset.mem_sdiff, Finset.mem_singleton, Finset.not_mem_empty, iff_false,
          not_and, not_not]
        rintro rfl
        exact hhit
      rw [hsd, total_target_distance_singleton]
      have h0 : total_target_distance tr.2.1 (∅ : TargetSet) = 0 := by
        simp [total_target_distance]
      rw [h0, hnl]
      have h2 : 1 ≤ p.transition_cost tr.1 loc := hstep2
      have h3 : manhattan_distance loc tr.2.1 ≤ 1 := hstep1
      omega
    · have hsd : ({t} : TargetSet) \ tr.2.2 = {t} := by
        ext y
        simp only [Finset.mem_sdiff, Finset.mem_singleton]
        constructor
        · rintro ⟨hy, _⟩
          exact hy
        · rintro rfl
          exact ⟨rfl, hhit⟩
      rw [hsd, total_target_distance_singleton, total_target_distance_singleton]
      have h1 := manhattan_triangle loc tr.2.1 t
      have h2 := manhattan_triangle tr.2.1 loc t
      have h3 := manhattan_comm loc tr.2.1
      have h4 : manhattan_distance loc tr.2.1 ≤ 1 := hstep1
      have h5 : 1 ≤ p.transition_cost tr.1 loc := hstep2
      omega

/-- Witness for C7 amended: on `pG`, the single transition from the start
changes the heuristic from 1 to 0, within its cost 1. -/
theorem heuristic_consistent_single_witness :
    GridStep pG ∧ ({((0, 1) : Loc)} : TargetSet).card ≤ 1 ∧
      ("E", ((0, 1) : Loc), ({((0, 1) : Loc)} : TargetSet))
        ∈ pG.transitions ((0, 0) : Loc) ({((0, 1) : Loc)} : TargetSet) ∧
      ((total_target_distance ((0, 0) : Loc) ({((0, 1) : Loc)} : TargetSet) : ℤ)
          - total_target_distance ((0, 1) : Loc)
              (({((0, 1) : Loc)} : TargetSet) \ {((0, 1) : Loc)})).natAbs
        ≤ pG.transition_cost "E" ((0, 0) : Loc) :=
  ⟨pG_gridstep, by decide, by decide,
    heuristic_consistent_single pG pG_gridstep ((0, 0) : Loc)
      ({((0, 1) : Loc)} : TargetSet) (by decide)
      ("E", ((0, 1) : Loc), ({((0, 1) : Loc)} : TargetSet)) (by decide)⟩

theorem childNodes_length_le {p : MazeProblem} {nd : SearchTreeNode}
    {closed' : Finset MState} (hnd : nd.player_loc ∈ stateUniv p) :
    (childNodes p nd closed').length ≤ branchBound p := by
  unfold childNodes
  calc (List.filterMap _ (p.transitions nd.player_loc.1 nd.player_loc.2)).length
      ≤ (p.transitions nd.player_loc.1 nd.player_loc.2).length :=
        List.length_filterMap_le _ _
    _ ≤ branchBound p := by
        unfold branchBound
        exact @Finset.le_sup ℕ MState _ _ (stateUniv p)
          (fun s => (p.transitions s.1 s.2).length) nd.player_loc hnd

theorem childNodes_univ {p : MazeProblem} (hc : Conforming p) {nd x : SearchTreeNode}
    {closed' : Finset MState} (hnd : nd.player_loc ∈ stateUniv p)
    (hx : x ∈ childNodes p nd closed') : x.player_loc ∈ stateUniv p := by
  rcases childNodes_mem hx with ⟨tr, htr, hpl⟩
  rw [hpl]
  simp only [stateUniv, Finset.mem_product, Finset.mem_powerset]
  constructor
  · exact hc.2.2 _ _ _ htr
  · have hts : nd.player_loc.2 ⊆ p.initial_targets := by
      have hu := hnd
      simp only [stateUniv, Finset.mem_product, Finset.mem_powerset] at hu
      exact hu.2
    exact subset_trans Finset.sdiff_subset hts

theorem pathfindAux_ne_none (p : MazeProblem) (hc : Conforming p) :
    ∀ (fuel : ℕ) (frontier : List SearchTreeNode) (closed : Finset MState),
      (∀ nd ∈ frontier, nd.player_loc ∈ stateUniv p) →
      pot p frontier closed < fuel →
      (pathfindAux p fuel frontier closed).1 ≠ none := by
  intro fuel
  induction fuel with
  | zero =>
    intro frontier closed _ hpot
    exact absurd hpot (Nat.not_lt_zero _)
  | succ n ih =>
    intro frontier closed hfr hpot
    rcases hpop : popMin frontier with _ | ⟨nd, rest⟩
    · rw [pathfindAux_empty_step hpop]
      simp
    · have hlen := popMin_length hpop
      by_cases hin : nd.player_loc ∈ closed
      · rw [pathfindAux_closed_step hpop hin]
        apply ih rest closed (fun x hx => hfr x (popMin_subset hpop x hx))
        unfold pot at hpot ⊢
        set K := (branchBound p + 1) * ((stateUniv p \ closed).card) with hK
        omega
      · by_cases hgoal : nd.player_loc.2 = ∅
        · rw [pathfindAux_goal_step hpop hin hgoal]
          simp
        · rw [pathfindAux_expand_step hpop hin hgoal]
          show (pathfindAux p n
              (rest ++ childNodes p nd (insert nd.player_loc closed))
              (insert nd.player_loc closed)).1 ≠ none
          have hndU : nd.player_loc ∈ stateUniv p := hfr nd (popMin_mem hpop)
          apply ih
          · intro x hx
            rcases List.mem_append.mp hx with hxr | hxc
            · exact hfr x (popMin_subset hpop x hxr)
            · exact childNodes_univ hc hndU hxc
          · have hch : (childNodes p nd (insert nd.player_loc closed)).length
                ≤ branchBound p := childNodes_length_le hndU
            have hmem : nd.player_loc ∈ (stateUniv p) \ closed :=
              Finset.mem_sdiff.mpr ⟨hndU, hin⟩
            have hcard : ((stateUniv p) \ insert nd.player_loc closed).card + 1
                = ((stateUniv p) \ closed).card := by
              have hins : (stateUniv p) \ insert nd.player_loc closed
                  = ((stateUniv p) \ closed).erase nd.player_loc := by
                ext y
                simp only [Finset.mem_sdiff, Finset.mem_erase, Finset.mem_insert]
                tauto
              rw [hins, Finset.card_erase_of_mem hmem]
              have hpos : 1 ≤ ((stateUniv p) \ closed).card :=
                Finset.card_pos.mpr ⟨nd.player_loc, hmem⟩
              omega
            unfold pot at hpot ⊢
            rw [List.length_append]
            have hexp : (branchBound p + 1) * ((stateUniv p) \ closed).card
                = (branchBound p + 1)
                    * ((stateUniv p) \ insert nd.player_loc closed).card
                  + (branchBound p + 1) := by
              rw [← hcard]
              ring
            rw [hexp] at hpot
            set B := branchBound p with hB
            set K := ((stateUniv p) \ insert nd.player_loc closed).card with hKc
            set M := (B + 1) * K with hM
            omega

theorem pathfindAux_success_reachable (p : MazeProblem) :
    ∀ (fuel : ℕ) (frontier : List SearchTreeNode) (closed : Finset MState),
      (∀ nd ∈ frontier, Reachable p nd.player_loc) →
      ∀ sol, (pathfindAux p fuel frontier closed).1 = some (some sol) →
      ∃ s, Reachable p s ∧ s.2 = ∅ := by
  intro fuel
  induction fuel with
  | zero =>
    intro frontier closed _ sol h
    simp [pathfindAux] at h
  | succ n ih =>
    intro frontier closed hfr sol h
    rcases hpop : popMin frontier with _ | ⟨nd, rest⟩
    · rw [pathfindAux_empty_step hpop] at h
      simp at h
    · by_cases hin : nd.player_loc ∈ closed
      · rw [pathfindAux_closed_step hpop hin] at h
        exact ih rest closed (fun x hx => hfr x (popMin_subset hpop x hx)) sol h
      · by_cases hgoal : nd.player_loc.2 = ∅
        · exact ⟨nd.player_loc, hfr nd (popMin_mem hpop), hgoal⟩
        · rw [pathfindAux_expand_step hpop hin hgoal] at h
          refine ih (rest ++ childNodes p nd (insert nd.player_loc closed))
            (insert nd.player_loc closed) ?_ sol h
          intro x hx
          rcases List.mem_append.mp hx with hxr | hxc
          · exact hfr x (popMin_subset hpop x hxr)
          · exact childNodes_reachable (hfr nd (popMin_mem hpop)) hxc

/-- C3: for every conforming oracle (finitely many locations and targets)
in which no state with an empty remaining-target set is reachable from the
initial state, the search loop terminates — there is a finite iteration
bound N such that, given any fuel of at least N, the frontier exhausts
before the fuel does (the run never reports fuel exhaustion) — and the
run returns Python's None (`some none`), the explicit unsolvable result. -/
theorem pathfind_terminates_unsolvable (p : MazeProblem) (hc : Conforming p)
    (hnog : ∀ s, Reachable p s → s.2 ≠ ∅) :
    ∃ N, ∀ fuel, N ≤ fuel → pathfind p fuel = some none := by
  refine ⟨pot p [mkStart p] ∅ + 1, ?_⟩
  intro fuel hfuel
  have hfr : ∀ nd ∈ [mkStart p], nd.player_loc ∈ stateUniv p := by
    intro nd hnd
    have hnd' : nd = mkStart p := by simpa using hnd
    subst hnd'
    show (p.initial_loc, p.initial_targets) ∈ stateUniv p
    simp only [stateUniv, Finset.mem_product, Finset.mem_powerset]
    exact ⟨hc.1, subset_refl _⟩
  have hne := pathfindAux_ne_none p hc fuel [mkStart p] ∅ hfr (by omega)
  rcases hres : (pathfindAux p fuel [mkStart p] ∅).1 with _ | r
  · exact absurd hres hne
  · rcases r with _ | sol
    · exact hres
    · exfalso
      have hfr2 : ∀ nd ∈ [mkStart p], Reachable p nd.player_loc := by
        intro nd hnd
        have hnd' : nd = mkStart p := by simpa using hnd
        subst hnd'
        exact Reachable.init
      rcases pathfindAux_success_reachable p fuel [mkStart p] ∅ hfr2 sol hres with
        ⟨s, hs, hs0⟩
      exact hnog s hs hs0

theorem pW_conforming : Conforming pW := by
  refine ⟨by decide, by decide, ?_⟩
  intro loc ts tr htr
  exact absurd htr (List.not_mem_nil tr)

/-- Witness for C3: the no-transition problem `pW` has an unreachable
target, and `pathfind` on it terminates with the explicit None result for
all sufficient fuel. -/
theorem pathfind_terminates_unsolvable_witness :
    Conforming pW ∧ (∀ s, Reachable pW s → s.2 ≠ ∅) ∧
      ∃ N, ∀ fuel, N ≤ fuel → pathfind pW fuel = some none :=
  ⟨pW_conforming,
    fun s hs => by rw [pW_reachable s hs]; decide,
    pathfind_terminates_unsolvable pW pW_conforming
      (fun s hs => by rw [pW_reachable s hs]; decide)⟩

end Pathfinder
